import Mathlib

/-!
Verification of the `sku-obfuscator` monoalphabetic cipher.

This file gives a shallow embedding of `src/MonoalphabeticCipher.js` and the
SKU helpers of `index.js`, and proves the specified properties about it.

JavaScript numbers are IEEE-754 doubles.  Every number arising in this
program is a nonnegative integer or a nonnegative rational below 2^62, far
from overflow and from the subnormal range, so an arithmetic operation is
modelled as the exact operation followed by rounding of the result to 53
significant bits (round to nearest, ties to even).  `flN` performs that
rounding for natural numbers, `flQ` for rationals.
-/

namespace SkuObfuscator

/-- Rounding of a natural number to the nearest IEEE-754 double.
Numbers below 2^53 are exactly representable; a larger number is rounded to
the nearest multiple of its unit in the last place `2 ^ (Nat.log2 n - 52)`,
ties going to the even multiple. -/
def flN (n : ℕ) : ℕ :=
  if n < 2 ^ 53 then n
  else
    let e := Nat.log2 n - 52
    let q := n / 2 ^ e
    let r := n % 2 ^ e
    let half := 2 ^ (e - 1)
    (if half < r ∨ (r = half ∧ q % 2 = 1) then q + 1 else q) * 2 ^ e

/-- One update of the generator produced by `seededRandom` in
`src/MonoalphabeticCipher.js`:
`state = (state * 1103515245 + 12345) & 0x7fffffff`, where the
multiplication and the addition are double-precision operations and the
bitwise AND keeps the low 31 bits of the integer result. -/
def lcgNext (state : ℕ) : ℕ :=
  flN (flN (state * 1103515245) + 12345) % 2 ^ 31

theorem flN_of_lt {n : ℕ} (h : n < 2 ^ 53) : flN n = n := by
  rw [flN, if_pos h]

theorem two_dvd_flN {n : ℕ} (h : 2 ^ 53 ≤ n) : 2 ∣ flN n := by
  have hn : n ≠ 0 := by positivity
  have hlog : 53 ≤ Nat.log2 n := (Nat.le_log2 hn).2 h
  rw [flN, if_neg (by omega)]
  exact Dvd.dvd.mul_left ⟨2 ^ (Nat.log2 n - 53), by
    rw [← pow_succ']; congr 1; omega⟩ _

theorem le_flN {n : ℕ} (h : 2 ^ 53 ≤ n) : 2 ^ 53 ≤ flN n := by
  have hn : n ≠ 0 := by positivity
  have hlog : 53 ≤ Nat.log2 n := (Nat.le_log2 hn).2 h
  have hpow : 2 ^ Nat.log2 n ≤ n := Nat.log2_self_le hn
  rw [flN, if_neg (by omega)]
  have hq : 2 ^ 52 ≤ n / 2 ^ (Nat.log2 n - 52) := by
    rw [Nat.le_div_iff_mul_le (Nat.pos_pow_of_pos _ (by norm_num))]
    calc 2 ^ 52 * 2 ^ (Nat.log2 n - 52) = 2 ^ Nat.log2 n := by
          rw [← pow_add]; congr 1; omega
      _ ≤ n := hpow
  have h1 : 1 ≤ Nat.log2 n - 52 := by omega
  calc (2 : ℕ) ^ 53 = 2 ^ 52 * 2 ^ 1 := by norm_num
    _ ≤ n / 2 ^ (Nat.log2 n - 52) * 2 ^ (Nat.log2 n - 52) :=
        Nat.mul_le_mul hq (Nat.pow_le_pow_right (by norm_num) h1)
    _ ≤ _ := by
        apply Nat.mul_le_mul_right
        split <;> omega

theorem lcgNext_lt (s : ℕ) : lcgNext s < 2 ^ 31 :=
  Nat.mod_lt _ (by norm_num)

/-- The generator state `0x7fffffff` (which would make `state / 0x7fffffff`
yield exactly 1.0) is never produced, whatever the previous state.  Reaching
it would require the double-precision step to be exact — forcing the previous
state to be congruent to 230538014 modulo 2^31 while also being at most
8162278 — and an inexact step always yields an even number. -/
theorem lcgNext_ne_top (s : ℕ) : lcgNext s ≠ 2 ^ 31 - 1 := by
  intro h
  unfold lcgNext at h
  rw [show (2 : ℕ) ^ 31 = 2147483648 from by norm_num] at h
  by_cases hp : s * 1103515245 + 12345 < 2 ^ 53
  · have hinner : flN (s * 1103515245) = s * 1103515245 :=
      flN_of_lt (by clear h; omega)
    rw [hinner, flN_of_lt hp] at h
    -- the step was exact: solve the congruence for s
    have hplt : (s * 1103515245) % 2147483648 < 2147483648 :=
      Nat.mod_lt _ (by norm_num)
    have hx : (s * 1103515245) % 2147483648 = 2147471302 := by
      rw [Nat.add_mod, show (12345 : ℕ) % 2147483648 = 12345 from by norm_num]
        at h
      clear hinner hp
      generalize hg : (s * 1103515245) % 2147483648 = x at h hplt ⊢
      clear hg
      omega
    clear h
    have hs : s ≤ 8162278 := by
      by_contra hs'
      clear hx hplt
      have h8 : 8162279 * 1103515245 ≤ s * 1103515245 :=
        Nat.mul_le_mul_right _ (by omega)
      omega
    have hmodeq : s % 2147483648 = 230538014 := by
      have h1 : s * (1103515245 * 1857678181) ≡ s [MOD 2147483648] := by
        simpa using Nat.ModEq.mul_left s
          (show 1103515245 * 1857678181 ≡ 1 [MOD 2147483648] from by decide)
      have h2 : s * (1103515245 * 1857678181) ≡
          2147471302 * 1857678181 [MOD 2147483648] := by
        rw [← mul_assoc]
        exact Nat.ModEq.mul_right 1857678181
          (show (s * 1103515245) % 2147483648 = 2147471302 % 2147483648 from by
            rw [hx])
      have h3 : s ≡ 2147471302 * 1857678181 [MOD 2147483648] := h1.symm.trans h2
      have h4 : s % 2147483648 = (2147471302 * 1857678181) % 2147483648 := h3
      rw [h4]
    rw [Nat.mod_eq_of_lt (show s < 2147483648 from by clear hx hplt; omega)]
      at hmodeq
    rw [hmodeq] at hs
    exact absurd hs (by norm_num)
  · by_cases hp2 : s * 1103515245 < 2 ^ 53
    · rw [flN_of_lt hp2] at h
      have hd := two_dvd_flN (n := s * 1103515245 + 12345) (by omega)
      omega
    · have h1 := two_dvd_flN (n := s * 1103515245) (by omega)
      have h2 := le_flN (n := s * 1103515245) (by omega)
      have h3 := two_dvd_flN (n := flN (s * 1103515245) + 12345) (by omega)
      omega

/-- Rounding of a rational to an integer, round to nearest with ties to the
even integer (the IEEE-754 default rounding applied at unit granularity). -/
def rhe (r : ℚ) : ℤ :=
  if r - ⌊r⌋ < 1 / 2 then ⌊r⌋
  else if 1 / 2 < r - ⌊r⌋ then ⌊r⌋ + 1
  else if ⌊r⌋ % 2 = 0 then ⌊r⌋ else ⌊r⌋ + 1

/-- Floor of the base-2 logarithm of a positive rational, valid for
arguments of magnitude at least `2 ^ (-200)` (every positive value in this
program is far above that). -/
def floorLog2 (q : ℚ) : ℤ := (Nat.log2 (⌊q * 2 ^ 200⌋).toNat : ℤ) - 200

/-- Rounding of a rational to the nearest IEEE-754 double: the value is
scaled so that its significand becomes an integer in `[2^52, 2^53)`, rounded
there with ties to even, and scaled back.  Only used on nonnegative values in
the double's normal range. -/
def flQ (q : ℚ) : ℚ :=
  if q ≤ 0 then q
  else (rhe (q / (2 : ℚ) ^ (floorLog2 q - 52)) : ℚ) * (2 : ℚ) ^ (floorLog2 q - 52)

/-- The value yielded by one call of the generator from `seededRandom`:
`state / 0x7fffffff` as a double-precision division. -/
def jsRandVal (state : ℕ) : ℚ := flQ ((state : ℚ) / 2147483647)

/-- The Fisher-Yates draw of `deterministicShuffle`:
`Math.floor(rng() * (i + 1))` with a double-precision multiplication. -/
def drawJ (v : ℚ) (i : ℕ) : ℤ := ⌊flQ (v * ((i : ℚ) + 1))⌋

theorem rhe_sub_le (r : ℚ) : |(rhe r : ℚ) - r| ≤ 1 / 2 := by
  have h1 : (⌊r⌋ : ℚ) ≤ r := Int.floor_le r
  have h2 : r < ⌊r⌋ + 1 := Int.lt_floor_add_one r
  unfold rhe
  split_ifs with ha hb hc <;>
    (rw [abs_le]; constructor <;> (push_cast; linarith))

theorem rhe_nonneg {r : ℚ} (h : 0 ≤ r) : 0 ≤ rhe r := by
  have h1 : 0 ≤ ⌊r⌋ := Int.floor_nonneg.mpr h
  unfold rhe
  split_ifs <;> omega

theorem floorLog2_le {q : ℚ} (h : (2 : ℚ) ^ (-200 : ℤ) ≤ q) :
    (2 : ℚ) ^ floorLog2 q ≤ q := by
  have h1 : (1 : ℚ) ≤ q * 2 ^ 200 := by
    have := mul_le_mul_of_nonneg_right h
      (show (0 : ℚ) ≤ 2 ^ 200 by positivity)
    calc (1 : ℚ) = 2 ^ (-200 : ℤ) * 2 ^ 200 := by
          rw [show ((2 : ℚ) ^ 200) = (2 : ℚ) ^ (200 : ℤ) from (zpow_natCast 2 200).symm,
            ← zpow_add₀ (two_ne_zero)]
          norm_num
      _ ≤ q * 2 ^ 200 := this
  have h2 : (1 : ℤ) ≤ ⌊q * 2 ^ 200⌋ := Int.le_floor.mpr (by exact_mod_cast h1)
  have h3 : ((⌊q * 2 ^ 200⌋.toNat : ℤ) : ℚ) ≤ q * 2 ^ 200 := by
    rw [Int.toNat_of_nonneg (by omega)]
    exact Int.floor_le _
  have h4 : (2 : ℕ) ^ Nat.log2 ⌊q * 2 ^ 200⌋.toNat ≤ ⌊q * 2 ^ 200⌋.toNat :=
    Nat.log2_self_le (by omega)
  have h5 : (2 : ℚ) ^ ((Nat.log2 ⌊q * 2 ^ 200⌋.toNat : ℤ)) ≤ q * 2 ^ 200 := by
    calc (2 : ℚ) ^ ((Nat.log2 ⌊q * 2 ^ 200⌋.toNat : ℤ))
        = ((2 ^ Nat.log2 ⌊q * 2 ^ 200⌋.toNat : ℕ) : ℚ) := by
          rw [zpow_natCast]; push_cast; ring
      _ ≤ ((⌊q * 2 ^ 200⌋.toNat : ℤ) : ℚ) := by exact_mod_cast h4
      _ ≤ q * 2 ^ 200 := h3
  rw [floorLog2, zpow_sub₀ (two_ne_zero), div_le_iff (by positivity)]
  calc (2 : ℚ) ^ ((Nat.log2 ⌊q * 2 ^ 200⌋.toNat : ℤ)) ≤ q * 2 ^ 200 := h5
    _ = q * (2 : ℚ) ^ (200 : ℤ) := by
        rw [show ((2 : ℚ) ^ 200) = (2 : ℚ) ^ (200 : ℤ) from (zpow_natCast 2 200).symm]

theorem flQ_err {q : ℚ} (h : (2 : ℚ) ^ (-200 : ℤ) ≤ q) :
    |flQ q - q| ≤ q * (2 : ℚ) ^ (-53 : ℤ) := by
  have hq0 : 0 < q := lt_of_lt_of_le (by positivity) h
  rw [flQ, if_neg (not_le.mpr hq0)]
  have h2e : (0 : ℚ) < (2 : ℚ) ^ (floorLog2 q - 52) := zpow_pos (by norm_num) _
  have key : (rhe (q / (2 : ℚ) ^ (floorLog2 q - 52)) : ℚ) *
      (2 : ℚ) ^ (floorLog2 q - 52) - q =
      ((rhe (q / (2 : ℚ) ^ (floorLog2 q - 52)) : ℚ) -
        q / (2 : ℚ) ^ (floorLog2 q - 52)) * (2 : ℚ) ^ (floorLog2 q - 52) := by
    field_simp
  rw [key, abs_mul, abs_of_pos h2e]
  calc |(rhe (q / (2 : ℚ) ^ (floorLog2 q - 52)) : ℚ) -
        q / (2 : ℚ) ^ (floorLog2 q - 52)| * (2 : ℚ) ^ (floorLog2 q - 52)
      ≤ (1 / 2) * (2 : ℚ) ^ (floorLog2 q - 52) :=
        mul_le_mul_of_nonneg_right (rhe_sub_le _) (le_of_lt h2e)
    _ = (2 : ℚ) ^ floorLog2 q * (2 : ℚ) ^ (-53 : ℤ) := by
        rw [zpow_sub₀ (two_ne_zero),
          show ((2 : ℚ) ^ (-53 : ℤ)) = 1 / 9007199254740992 from by norm_num,
          show ((2 : ℚ) ^ (52 : ℤ)) = 4503599627370496 from by norm_num]
        ring
    _ ≤ q * (2 : ℚ) ^ (-53 : ℤ) :=
        mul_le_mul_of_nonneg_right (floorLog2_le h) (by positivity)

theorem flQ_nonneg {q : ℚ} (h : 0 ≤ q) : 0 ≤ flQ q := by
  rw [flQ]
  split_ifs with h1
  · exact h
  · have hq0 : 0 < q := lt_of_not_le h1
    have : (0 : ℚ) ≤ q / (2 : ℚ) ^ (floorLog2 q - 52) := by positivity
    exact mul_nonneg (by exact_mod_cast rhe_nonneg this) (by positivity)

theorem flQ_zero : flQ 0 = 0 := by rw [flQ, if_pos le_rfl]

theorem jsRandVal_nonneg (state : ℕ) : 0 ≤ jsRandVal state :=
  flQ_nonneg (by positivity)

theorem jsRandVal_le {state : ℕ} (h : state ≤ 2147483646) :
    jsRandVal state ≤ 1 - (2 : ℚ) ^ (-32 : ℤ) := by
  rcases Nat.eq_zero_or_pos state with h0 | h0
  · subst h0
    rw [jsRandVal]
    norm_num [flQ_zero]
  · have h1 : (1 : ℚ) ≤ (state : ℚ) := by exact_mod_cast h0
    have hq200 : (2 : ℚ) ^ (-200 : ℤ) ≤ (state : ℚ) / 2147483647 :=
      calc (2 : ℚ) ^ (-200 : ℤ) ≤ 1 / 2147483647 := by norm_num
        _ ≤ (state : ℚ) / 2147483647 :=
            (div_le_div_right (by norm_num)).mpr h1
    have hqB : (state : ℚ) / 2147483647 ≤ 2147483646 / 2147483647 :=
      (div_le_div_right (by norm_num)).mpr (by exact_mod_cast h)
    have herr := abs_le.mp (flQ_err hq200)
    have hq0 : (0 : ℚ) ≤ (state : ℚ) / 2147483647 := by positivity
    have h53 : (0 : ℚ) ≤ (2 : ℚ) ^ (-53 : ℤ) := by positivity
    have hB53 : (state : ℚ) / 2147483647 * (2 : ℚ) ^ (-53 : ℤ) ≤
        2147483646 / 2147483647 * (2 : ℚ) ^ (-53 : ℤ) :=
      mul_le_mul_of_nonneg_right hqB h53
    have hfin : (2147483646 : ℚ) / 2147483647 +
        2147483646 / 2147483647 * (2 : ℚ) ^ (-53 : ℤ) ≤
        1 - (2 : ℚ) ^ (-32 : ℤ) := by norm_num
    rw [jsRandVal]
    linarith

theorem two_zpow_le_jsRandVal {state : ℕ} (h0 : 0 < state) :
    (2 : ℚ) ^ (-32 : ℤ) ≤ jsRandVal state := by
  have h1 : (1 : ℚ) ≤ (state : ℚ) := by exact_mod_cast h0
  have hq200 : (2 : ℚ) ^ (-200 : ℤ) ≤ (state : ℚ) / 2147483647 :=
    calc (2 : ℚ) ^ (-200 : ℤ) ≤ 1 / 2147483647 := by norm_num
      _ ≤ (state : ℚ) / 2147483647 :=
          (div_le_div_right (by norm_num)).mpr h1
  have herr := abs_le.mp (flQ_err hq200)
  have hq1 : (1 : ℚ) / 2147483647 ≤ (state : ℚ) / 2147483647 :=
    (div_le_div_right (by norm_num)).mpr h1
  have h53 : (0 : ℚ) ≤ (2 : ℚ) ^ (-53 : ℤ) := by positivity
  have hm : (state : ℚ) / 2147483647 * (2 : ℚ) ^ (-53 : ℤ) ≤
      (state : ℚ) / 2147483647 * 1 :=
    mul_le_mul_of_nonneg_left (by norm_num) (by positivity)
  have hfin : (2 : ℚ) ^ (-32 : ℤ) ≤
      (1 : ℚ) / 2147483647 - 1 / 2147483647 * (2 : ℚ) ^ (-53 : ℤ) := by norm_num
  have hmono : (1 : ℚ) / 2147483647 * (2 : ℚ) ^ (-53 : ℤ) ≤
      (state : ℚ) / 2147483647 * (2 : ℚ) ^ (-53 : ℤ) :=
    mul_le_mul_of_nonneg_right hq1 h53
  rw [jsRandVal]
  linarith

theorem drawJ_bounds {v : ℚ} (i : ℕ)
    (h0 : v = 0 ∨ (2 : ℚ) ^ (-32 : ℤ) ≤ v)
    (h1 : v ≤ 1 - (2 : ℚ) ^ (-32 : ℤ)) :
    0 ≤ drawJ v i ∧ drawJ v i ≤ (i : ℤ) := by
  rcases h0 with h0 | h0
  · subst h0
    rw [drawJ, zero_mul, flQ_zero]
    constructor
    · simp
    · simp
  · have hv0 : (0 : ℚ) < v := lt_of_lt_of_le (by positivity) h0
    have hi1 : (1 : ℚ) ≤ (i : ℚ) + 1 := by
      have : (0 : ℚ) ≤ (i : ℚ) := by positivity
      linarith
    have hp1 : v ≤ v * ((i : ℚ) + 1) := by
      calc v = v * 1 := (mul_one v).symm
        _ ≤ v * ((i : ℚ) + 1) := mul_le_mul_of_nonneg_left hi1 (le_of_lt hv0)
    have hp200 : (2 : ℚ) ^ (-200 : ℤ) ≤ v * ((i : ℚ) + 1) :=
      le_trans (le_trans (by norm_num) h0) hp1
    have herr := abs_le.mp (flQ_err hp200)
    have hpB : v * ((i : ℚ) + 1) ≤ ((i : ℚ) + 1) * (1 - (2 : ℚ) ^ (-32 : ℤ)) := by
      calc v * ((i : ℚ) + 1) ≤ (1 - (2 : ℚ) ^ (-32 : ℤ)) * ((i : ℚ) + 1) :=
            mul_le_mul_of_nonneg_right h1 (by positivity)
        _ = ((i : ℚ) + 1) * (1 - (2 : ℚ) ^ (-32 : ℤ)) := mul_comm _ _
    have hc : (0 : ℚ) < (i : ℚ) + 1 := by positivity
    have hlt : flQ (v * ((i : ℚ) + 1)) < (i : ℚ) + 1 := by
      have h53 : (0 : ℚ) ≤ (2 : ℚ) ^ (-53 : ℤ) := by positivity
      have hmul : v * ((i : ℚ) + 1) * (2 : ℚ) ^ (-53 : ℤ) ≤
          ((i : ℚ) + 1) * (1 - (2 : ℚ) ^ (-32 : ℤ)) * (2 : ℚ) ^ (-53 : ℤ) :=
        mul_le_mul_of_nonneg_right hpB h53
      have hfact : ((i : ℚ) + 1) * (1 - (2 : ℚ) ^ (-32 : ℤ)) +
          ((i : ℚ) + 1) * (1 - (2 : ℚ) ^ (-32 : ℤ)) * (2 : ℚ) ^ (-53 : ℤ) <
          (i : ℚ) + 1 := by
        have hkey : (1 - (2 : ℚ) ^ (-32 : ℤ)) * (1 + (2 : ℚ) ^ (-53 : ℤ)) < 1 := by
          norm_num
        calc ((i : ℚ) + 1) * (1 - (2 : ℚ) ^ (-32 : ℤ)) +
            ((i : ℚ) + 1) * (1 - (2 : ℚ) ^ (-32 : ℤ)) * (2 : ℚ) ^ (-53 : ℤ)
            = ((i : ℚ) + 1) * ((1 - (2 : ℚ) ^ (-32 : ℤ)) *
                (1 + (2 : ℚ) ^ (-53 : ℤ))) := by ring
          _ < ((i : ℚ) + 1) * 1 := mul_lt_mul_of_pos_left hkey hc
          _ = (i : ℚ) + 1 := mul_one _
      linarith
    have hnn : (0 : ℚ) ≤ flQ (v * ((i : ℚ) + 1)) :=
      flQ_nonneg (by positivity)
    constructor
    · exact Int.le_floor.mpr (by exact_mod_cast hnn)
    · have hfl : ⌊flQ (v * ((i : ℚ) + 1))⌋ < (i : ℤ) + 1 :=
        Int.floor_lt.mpr (by push_cast; exact hlt)
      rw [drawJ]
      omega

/-- C4: for every seed and every iteration, the value yielded by the seeded
generator lies in [0, 1) — the state `0x7fffffff`, whose quotient would be
exactly 1.0, is unreachable — and the Fisher-Yates draw
`Math.floor(rng() * (i + 1))` satisfies `0 ≤ j ≤ i`, so every array access
of the shuffle is within bounds. -/
theorem claim4_rng_and_draw_in_bounds (s i : ℕ) :
    0 ≤ jsRandVal (lcgNext s) ∧ jsRandVal (lcgNext s) < 1 ∧
      0 ≤ drawJ (jsRandVal (lcgNext s)) i ∧
      drawJ (jsRandVal (lcgNext s)) i ≤ (i : ℤ) := by
  have hlt := lcgNext_lt s
  have hne := lcgNext_ne_top s
  have hle : lcgNext s ≤ 2147483646 := by
    have h31 : (2 : ℕ) ^ 31 = 2147483648 := by norm_num
    omega
  have hub := jsRandVal_le hle
  have h0 : jsRandVal (lcgNext s) = 0 ∨
      (2 : ℚ) ^ (-32 : ℤ) ≤ jsRandVal (lcgNext s) := by
    rcases Nat.eq_zero_or_pos (lcgNext s) with hz | hz
    · left
      rw [hz, jsRandVal]
      norm_num [flQ_zero]
    · right
      exact two_zpow_le_jsRandVal hz
  have hdraw := drawJ_bounds i h0 hub
  refine ⟨jsRandVal_nonneg _, ?_, hdraw.1, hdraw.2⟩
  have : (0 : ℚ) < (2 : ℚ) ^ (-32 : ℤ) := by positivity
  linarith

/-- C5, as stated, fails: at state `2^30 + 1` the double-precision product
`state * 1103515245` exceeds 2^53 and is rounded, so the implemented update
differs from the exact integer recurrence. -/
theorem claim5_counterexample :
    1073741825 < 2 ^ 31 ∧
      lcgNext 1073741825 ≠ (1073741825 * 1103515245 + 12345) % 2 ^ 31 := by
  constructor
  · norm_num
  · have hl1 : Nat.log2 1184890473081622125 = 60 := by
      have h1 : (60 : ℕ) ≤ Nat.log2 1184890473081622125 :=
        (Nat.le_log2 (by norm_num)).2 (by norm_num)
      have h2 : Nat.log2 1184890473081622125 < 61 :=
        (Nat.log2_lt (by norm_num)).2 (by norm_num)
      omega
    have hl2 : Nat.log2 1184890473081634361 = 60 := by
      have h1 : (60 : ℕ) ≤ Nat.log2 1184890473081634361 :=
        (Nat.le_log2 (by norm_num)).2 (by norm_num)
      have h2 : Nat.log2 1184890473081634361 < 61 :=
        (Nat.log2_lt (by norm_num)).2 (by norm_num)
      omega
    have e1 : flN 1184890473081622125 = 1184890473081622016 := by
      rw [flN, if_neg (by norm_num), hl1]
      norm_num
    have e2 : flN 1184890473081634361 = 1184890473081634304 := by
      rw [flN, if_neg (by norm_num), hl2]
      norm_num
    have hprod : (1073741825 * 1103515245 : ℕ) = 1184890473081622125 := by norm_num
    rw [lcgNext, hprod, e1]
    norm_num [e2]

/-- C5 amended: the implemented update agrees with the exact integer
recurrence exactly when the intermediate products stay below 2^53, where
double-precision arithmetic is exact. -/
theorem claim5_amended (s : ℕ) (h : s * 1103515245 + 12345 < 2 ^ 53) :
    lcgNext s = (s * 1103515245 + 12345) % 2 ^ 31 := by
  rw [lcgNext, flN_of_lt (show s * 1103515245 < 2 ^ 53 by omega), flN_of_lt h]

theorem claim5_amended_witness :
    12345 * 1103515245 + 12345 < 2 ^ 53 ∧
      lcgNext 12345 = (12345 * 1103515245 + 12345) % 2 ^ 31 :=
  ⟨by norm_num, claim5_amended 12345 (by norm_num)⟩

/-- Conversion of an integer to JavaScript's signed 32-bit range
`[-2^31, 2^31)`, the result of `ToInt32` in the ECMAScript semantics of
`<<` and `&`. -/
def toInt32 (x : ℤ) : ℤ :=
  if x % 4294967296 < 2147483648 then x % 4294967296
  else x % 4294967296 - 4294967296

/-- One step of `hashKey` in `src/MonoalphabeticCipher.js`:
`hash = ((hash << 5) - hash + charCode) & 0xffffffff`.  In JavaScript
`hash << 5` wraps the product `hash * 32` to a signed 32-bit integer, the
subtraction and addition are exact (the magnitudes stay far below 2^53),
and `& 0xffffffff` converts the result to a signed 32-bit integer. -/
def hashStep (h : ℤ) (c : ℕ) : ℤ := toInt32 (toInt32 (h * 32) - h + c)

/-- `hashKey`: fold `hashStep` over the character codes of the key starting
from 0, then `Math.abs`.  A key is modelled as its list of UTF-16 code
units. -/
def hashKey (key : List ℕ) : ℕ := (key.foldl hashStep 0).natAbs

/-- The accumulation in the words of the specification of claim C6:
`hash = ((hash << 5) - hash + charCode) mod 2^32`, an unsigned value in
`[0, 2^32)` at every step. -/
def specHashAccum (key : List ℕ) : ℕ :=
  key.foldl (fun h c => (h * 32 - h + c) % 4294967296) 0

theorem toInt32_mod (x : ℤ) : toInt32 x % 4294967296 = x % 4294967296 := by
  unfold toInt32
  split_ifs <;> omega

theorem toInt32_congr {x y : ℤ} (h : x % 4294967296 = y % 4294967296) :
    toInt32 x = toInt32 y := by
  unfold toInt32
  rw [h]

theorem hashStep_mod_aux (A B : ℤ) (u c : ℕ)
    (t1 : A % 4294967296 = B * 32 % 4294967296)
    (t2 : B % 4294967296 = (u : ℤ) % 4294967296) :
    (A - B + c) % 4294967296 =
      ((u : ℤ) * 32 - u + c) % 4294967296 % 4294967296 := by
  omega

theorem hashStep_toInt32 (u c : ℕ) :
    hashStep (toInt32 u) c = toInt32 ((u * 32 - u + c) % 4294967296 : ℕ) := by
  unfold hashStep
  apply toInt32_congr
  have hsub : ((u * 32 - u + c : ℕ) : ℤ) = (u : ℤ) * 32 - u + c := by
    have hle : u ≤ u * 32 := by omega
    push_cast [hle]
    ring
  have hcast : (((u * 32 - u + c) % 4294967296 : ℕ) : ℤ) =
      ((u * 32 - u + c : ℕ) : ℤ) % 4294967296 := by
    push_cast
    ring
  rw [hcast, hsub]
  exact hashStep_mod_aux _ _ u c (toInt32_mod _) (toInt32_mod u)

theorem foldl_hashStep (key : List ℕ) : ∀ u : ℕ,
    key.foldl hashStep (toInt32 u) =
      toInt32 ((key.foldl (fun h c => (h * 32 - h + c) % 4294967296) u : ℕ) : ℤ) := by
  induction key with
  | nil =>
    intro u
    rw [List.foldl_nil, List.foldl_nil]
  | cons c rest ih =>
    intro u
    rw [List.foldl_cons, List.foldl_cons, hashStep_toInt32]
    exact ih _

/-- C6: `hashKey` is total, yields 0 on the empty key, and computes exactly
the specified accumulation `hash = ((hash << 5) - hash + charCode) mod 2^32`
interpreted with 32-bit (signed) wraparound, followed by the absolute value.
Nonnegativity of the result is expressed by the return type ℕ. -/
theorem claim6_hashKey (key : List ℕ) :
    hashKey ([] : List ℕ) = 0 ∧
      hashKey key = (toInt32 (specHashAccum key)).natAbs := by
  constructor
  · rfl
  · rw [hashKey, specHashAccum]
    have h0 : (0 : ℤ) = toInt32 ((0 : ℕ) : ℤ) := by decide
    rw [h0, foldl_hashStep key 0]

/-- The fixed 62-character set of `generateTable`:
`'abcdefghijklmnopqrstuvwxyzABCDEFGHIJKLMNOPQRSTUVWXYZ0123456789'`. -/
def chars : List Char :=
  "abcdefghijklmnopqrstuvwxyzABCDEFGHIJKLMNOPQRSTUVWXYZ0123456789".toList

/-- JavaScript array destructuring swap `[arr[i], arr[j]] = [arr[j], arr[i]]`:
both elements are read first, then written back.  The guard restricts the
operation to in-bounds indices; an out-of-bounds index never occurs on any
input reached by this program (theorem `claim4_rng_and_draw_in_bounds`
covers the draw, and the loop index is below the length by construction). -/
def listSwap (l : List Char) (i j : ℕ) : List Char :=
  if i < l.length ∧ j < l.length then
    (l.set i (l.getD j 'a')).set j (l.getD i 'a')
  else l

/-- The Fisher-Yates loop of `deterministicShuffle`: the first argument is
the loop variable `i`, counting down to 1; each iteration advances the
generator once, draws `j = Math.floor(rng() * (i + 1))` and swaps positions
`i` and `j`. -/
def fyAux : ℕ → List Char → ℕ → List Char
  | 0, arr, _ => arr
  | i + 1, arr, state =>
    fyAux i
      (listSwap arr (i + 1) (drawJ (jsRandVal (lcgNext state)) (i + 1)).toNat)
      (lcgNext state)

/-- `deterministicShuffle` of `src/MonoalphabeticCipher.js`: Fisher-Yates
over the characters of `str`, driven by the generator seeded with `seed`. -/
def deterministicShuffle (str : List Char) (seed : ℕ) : List Char :=
  fyAux (str.length - 1) str seed

/-- Assignment `obj[k] = v` on a JavaScript object modelled as an ordered
association list: an existing key keeps its position and gets the new value,
a new key is appended (JavaScript objects preserve insertion order of
string keys). -/
def jsObjInsert (t : List (Char × Char)) (k v : Char) : List (Char × Char) :=
  if t.any (fun p => p.1 == k) then
    t.map (fun p => if p.1 == k then (k, v) else p)
  else t ++ [(k, v)]

/-- Property read `obj[k]` on a JavaScript object: `none` models
`undefined`. -/
def jsObjGet (t : List (Char × Char)) (k : Char) : Option Char :=
  (t.find? (fun p => p.1 == k)).map (fun p => p.2)

/-- A cipher instance: the two lookup tables built by `generateTable`. -/
structure Cipher where
  encryptTable : List (Char × Char)
  decryptTable : List (Char × Char)

/-- `generateTable`: hash the key, shuffle the character set, then fill both
tables in one pass with `encryptTable[chars[i]] = shuffled[i]` and
`decryptTable[shuffled[i]] = chars[i]`.  The index loop is rendered as a
fold over `chars.zip shuffled`; the two lists have the same length (theorem
`length_deterministicShuffle`), so the pairing is exactly the source's
indexing. -/
def buildEncryptTable (key : List ℕ) : List (Char × Char) :=
  (chars.zip (deterministicShuffle chars (hashKey key))).foldl
    (fun t p => jsObjInsert t p.1 p.2) []

def buildDecryptTable (key : List ℕ) : List (Char × Char) :=
  (chars.zip (deterministicShuffle chars (hashKey key))).foldl
    (fun t p => jsObjInsert t p.2 p.1) []

def generateTable (key : List ℕ) : Cipher where
  encryptTable := buildEncryptTable key
  decryptTable := buildDecryptTable key

/-- `encrypt`: per-character substitution `this.encryptTable[c] || c`.
Table values are single characters from the character set, never the empty
string, so the JavaScript falsy fallback `|| c` fires exactly when the
lookup is `undefined`. -/
def encrypt (c : Cipher) (text : List Char) : List Char :=
  text.map (fun ch => (jsObjGet c.encryptTable ch).getD ch)

/-- `decrypt`: per-character substitution `this.decryptTable[c] || c`. -/
def decrypt (c : Cipher) (text : List Char) : List Char :=
  text.map (fun ch => (jsObjGet c.decryptTable ch).getD ch)

/-- `testConsistency`: encrypt, decrypt, compare with the input. -/
def testConsistency (c : Cipher) (testText : List Char) : Bool :=
  decrypt c (encrypt c testText) == testText

/-- The record returned by `getTableInfo`. -/
structure TableInfo where
  encryptTableSize : ℕ
  decryptTableSize : ℕ
  isComplete : Bool
  sampleMapping : Option Char × Option Char × Option Char

/-- `getTableInfo`: table sizes (`Object.keys(...).length`), the
completeness flag, and the sample mappings for 'a', 'A' and '0'. -/
def getTableInfo (c : Cipher) : TableInfo where
  encryptTableSize := c.encryptTable.length
  decryptTableSize := c.decryptTable.length
  isComplete := c.encryptTable.length == 62 && c.decryptTable.length == 62
  sampleMapping :=
    (jsObjGet c.encryptTable 'a', jsObjGet c.encryptTable 'A',
      jsObjGet c.encryptTable '0')

/-- JavaScript `String.prototype.split` with a one-character separator. -/
def jsSplit (sep : Char) : List Char → List (List Char)
  | [] => [[]]
  | c :: rest =>
    if c == sep then [] :: jsSplit sep rest
    else
      match jsSplit sep rest with
      | [] => [[c]]
      | p :: ps => (c :: p) :: ps

/-- `generateSKU` of `index.js`: `` `${prefix}@${encrypted}` ``. -/
def generateSKU (productId pre : List Char) (key : List ℕ) : List Char :=
  pre ++ '@' :: encrypt (generateTable key) productId

/-- The object returned by `decodeSKU`; `pfx` renders the source's first
field, `productId` and `type` the other two. -/
structure DecodedSKU where
  pfx : List Char
  productId : List Char
  type : String

/-- `decodeSKU` of `index.js`: split on '@', take the first two parts,
decrypt the second.  When the split yields fewer than two parts the source
calls `decrypt(undefined)`, which throws; that branch is modelled as
`none`. -/
def decodeSKU (sku : List Char) (key : List ℕ) : Option DecodedSKU :=
  match jsSplit '@' sku with
  | p :: e :: _ => some ⟨p, decrypt (generateTable key) e, "monoalphabetic"⟩
  | _ => none

theorem length_listSwap (l : List Char) (i j : ℕ) :
    (listSwap l i j).length = l.length := by
  unfold listSwap
  split_ifs <;> simp

theorem listSwap_perm (l : List Char) (i j : ℕ) : List.Perm (listSwap l i j) l := by
  unfold listSwap
  split_ifs with h
  · obtain ⟨hi, hj⟩ := h
    rw [List.perm_iff_count]
    intro a
    rw [show l.getD j 'a' = l[j] from List.getD_eq_getElem l 'a' hj,
      show l.getD i 'a' = l[i] from List.getD_eq_getElem l 'a' hi]
    have hj1 : j < (l.set i l[j]).length := by simp [hj]
    have e1 := List.count_set l[j] a l i hi
    have e2 := List.count_set l[i] a (l.set i l[j]) j hj1
    rw [List.getElem_set, ite_self] at e2
    have hbi : (if l[i] == a then 1 else 0) ≤ l.count a := by
      split_ifs with hh
      · exact List.one_le_count_iff.mpr (eq_of_beq hh ▸ List.getElem_mem hi)
      · exact Nat.zero_le _
    have hbj : (if l[j] == a then 1 else 0) ≤ l.count a := by
      split_ifs with hh
      · exact List.one_le_count_iff.mpr (eq_of_beq hh ▸ List.getElem_mem hj)
      · exact Nat.zero_le _
    split_ifs at e1 e2 hbi hbj <;> omega
  · exact List.Perm.refl l

theorem fyAux_perm (i : ℕ) : ∀ (arr : List Char) (s : ℕ), List.Perm (fyAux i arr s) arr := by
  induction i with
  | zero => intro arr s; exact List.Perm.refl arr
  | succ i ih =>
    intro arr s
    rw [fyAux]
    exact (ih _ _).trans (listSwap_perm _ _ _)

theorem deterministicShuffle_perm (str : List Char) (seed : ℕ) :
    List.Perm (deterministicShuffle str seed) str := fyAux_perm _ _ _

theorem length_deterministicShuffle (str : List Char) (seed : ℕ) :
    (deterministicShuffle str seed).length = str.length :=
  (deterministicShuffle_perm str seed).length_eq

theorem chars_nodup : chars.Nodup := by decide

theorem chars_length : chars.length = 62 := by decide

theorem foldl_jsObjInsert (pairs : List (Char × Char)) :
    ∀ acc : List (Char × Char),
      (pairs.map Prod.fst).Nodup →
      (∀ p ∈ pairs, ∀ q ∈ acc, p.1 ≠ q.1) →
      pairs.foldl (fun t p => jsObjInsert t p.1 p.2) acc = acc ++ pairs := by
  induction pairs with
  | nil => intro acc _ _; simp
  | cons p rest ih =>
    intro acc hnd hdisj
    rw [List.foldl_cons]
    have hno : ¬(acc.any fun q => q.1 == p.1) = true := by
      intro hany
      obtain ⟨q, hq, hbeq⟩ := List.any_eq_true.mp hany
      exact hdisj p (List.mem_cons_self p rest) q hq (eq_of_beq hbeq).symm
    have hins : jsObjInsert acc p.1 p.2 = acc ++ [p] := by
      rw [jsObjInsert, if_neg hno]
    rw [hins]
    have hnd' : (rest.map Prod.fst).Nodup := by
      rw [List.map_cons] at hnd
      exact (List.nodup_cons.mp hnd).2
    have hhead : p.1 ∉ rest.map Prod.fst := by
      rw [List.map_cons] at hnd
      exact (List.nodup_cons.mp hnd).1
    have hdisj' : ∀ r ∈ rest, ∀ q ∈ acc ++ [p], r.1 ≠ q.1 := by
      intro r hr q hq
      rcases List.mem_append.mp hq with hq | hq
      · exact hdisj r (List.mem_cons_of_mem p hr) q hq
      · rw [List.mem_singleton.mp hq]
        intro heq
        exact hhead (heq ▸ List.mem_map_of_mem Prod.fst hr)
    rw [ih (acc ++ [p]) hnd' hdisj']
    simp

theorem foldl_jsObjInsert_swapped (pairs : List (Char × Char)) :
    ∀ acc : List (Char × Char),
      (pairs.map Prod.snd).Nodup →
      (∀ p ∈ pairs, ∀ q ∈ acc, p.2 ≠ q.1) →
      pairs.foldl (fun t p => jsObjInsert t p.2 p.1) acc =
        acc ++ pairs.map Prod.swap := by
  induction pairs with
  | nil => intro acc _ _; simp
  | cons p rest ih =>
    intro acc hnd hdisj
    rw [List.foldl_cons]
    have hno : ¬(acc.any fun q => q.1 == p.2) = true := by
      intro hany
      obtain ⟨q, hq, hbeq⟩ := List.any_eq_true.mp hany
      exact hdisj p (List.mem_cons_self p rest) q hq (eq_of_beq hbeq).symm
    have hins : jsObjInsert acc p.2 p.1 = acc ++ [p.swap] := by
      rw [jsObjInsert, if_neg hno]
      rfl
    rw [hins]
    have hnd' : (rest.map Prod.snd).Nodup := by
      rw [List.map_cons] at hnd
      exact (List.nodup_cons.mp hnd).2
    have hhead : p.2 ∉ rest.map Prod.snd := by
      rw [List.map_cons] at hnd
      exact (List.nodup_cons.mp hnd).1
    have hdisj' : ∀ r ∈ rest, ∀ q ∈ acc ++ [p.swap], r.2 ≠ q.1 := by
      intro r hr q hq
      rcases List.mem_append.mp hq with hq | hq
      · exact hdisj r (List.mem_cons_of_mem p hr) q hq
      · rw [List.mem_singleton.mp hq, Prod.fst_swap]
        intro heq
        exact hhead (heq ▸ List.mem_map_of_mem Prod.snd hr)
    rw [ih (acc ++ [p.swap]) hnd' hdisj']
    simp

theorem shuffled_nodup (key : List ℕ) :
    (deterministicShuffle chars (hashKey key)).Nodup :=
  ((deterministicShuffle_perm chars (hashKey key)).symm.nodup_iff).mp chars_nodup

theorem encryptTable_eq (key : List ℕ) :
    (generateTable key).encryptTable =
      chars.zip (deterministicShuffle chars (hashKey key)) := by
  have hlen : (deterministicShuffle chars (hashKey key)).length = chars.length :=
    length_deterministicShuffle chars (hashKey key)
  have hkeys : ((chars.zip (deterministicShuffle chars (hashKey key))).map
      Prod.fst).Nodup := by
    rw [List.map_fst_zip _ _ (le_of_eq hlen.symm)]
    exact chars_nodup
  simp only [generateTable]
  rw [buildEncryptTable,
    foldl_jsObjInsert _ [] hkeys (by intro p _ q hq; cases hq),
    List.nil_append]

theorem decryptTable_eq (key : List ℕ) :
    (generateTable key).decryptTable =
      (deterministicShuffle chars (hashKey key)).zip chars := by
  have hlen : (deterministicShuffle chars (hashKey key)).length = chars.length :=
    length_deterministicShuffle chars (hashKey key)
  have hvals : ((chars.zip (deterministicShuffle chars (hashKey key))).map
      Prod.snd).Nodup := by
    rw [List.map_snd_zip _ _ (le_of_eq hlen)]
    exact shuffled_nodup key
  simp only [generateTable]
  rw [buildDecryptTable,
    foldl_jsObjInsert_swapped _ [] hvals (by intro p _ q hq; cases hq)]
  rw [List.nil_append, List.zip_swap]

theorem jsObjGet_eq_none {t : List (Char × Char)} {k : Char}
    (h : ∀ p ∈ t, p.1 ≠ k) : jsObjGet t k = none := by
  rw [jsObjGet, List.find?_eq_none.mpr]
  · rfl
  · intro p hp
    simp only [beq_iff_eq]
    exact h p hp

theorem jsObjGet_zip (l1 : List Char) : ∀ (l2 : List Char), l1.Nodup →
    ∀ (i : ℕ) (hi : i < l1.length) (hi2 : i < l2.length),
      jsObjGet (l1.zip l2) (l1.get ⟨i, hi⟩) = some (l2.get ⟨i, hi2⟩) := by
  induction l1 with
  | nil => intro l2 _ i hi _; exact absurd hi (by simp)
  | cons a l1 ih =>
    intro l2 hnd i hi hi2
    cases l2 with
    | nil => exact absurd hi2 (by simp)
    | cons b l2 =>
      cases i with
      | zero =>
        rw [List.zip_cons_cons, jsObjGet,
          List.find?_cons_of_pos _ (by simp)]
        rfl
      | succ i =>
        have hi' : i < l1.length := by simpa using hi
        have hi2' : i < l2.length := by simpa using hi2
        have hne : a ≠ l1.get ⟨i, hi'⟩ := by
          intro heq
          exact (List.nodup_cons.mp hnd).1 (heq ▸ List.get_mem l1 i hi')
        rw [List.zip_cons_cons]
        show jsObjGet ((a, b) :: l1.zip l2) (l1.get ⟨i, hi'⟩) = _
        rw [jsObjGet, List.find?_cons_of_neg _ (by simpa using hne)]
        have := ih l2 (List.nodup_cons.mp hnd).2 i hi' hi2'
        rw [jsObjGet] at this
        rw [this]
        rfl

theorem enc_char_mem (key : List ℕ) {i : ℕ} (hi : i < chars.length)
    (hi2 : i < (deterministicShuffle chars (hashKey key)).length) :
    jsObjGet (generateTable key).encryptTable (chars.get ⟨i, hi⟩) =
      some ((deterministicShuffle chars (hashKey key)).get ⟨i, hi2⟩) := by
  rw [encryptTable_eq]
  exact jsObjGet_zip chars _ chars_nodup i hi hi2

theorem dec_char_mem (key : List ℕ) {i : ℕ}
    (hi2 : i < (deterministicShuffle chars (hashKey key)).length)
    (hi : i < chars.length) :
    jsObjGet (generateTable key).decryptTable
        ((deterministicShuffle chars (hashKey key)).get ⟨i, hi2⟩) =
      some (chars.get ⟨i, hi⟩) := by
  rw [decryptTable_eq]
  exact jsObjGet_zip _ chars (shuffled_nodup key) i hi2 hi

theorem enc_char_not_mem (key : List ℕ) {ch : Char} (h : ch ∉ chars) :
    jsObjGet (generateTable key).encryptTable ch = none := by
  rw [encryptTable_eq]
  apply jsObjGet_eq_none
  intro p hp heq
  exact h (heq ▸ (List.of_mem_zip hp).1)

theorem dec_char_not_mem (key : List ℕ) {ch : Char} (h : ch ∉ chars) :
    jsObjGet (generateTable key).decryptTable ch = none := by
  rw [decryptTable_eq]
  apply jsObjGet_eq_none
  intro p hp heq
  exact h ((deterministicShuffle_perm chars (hashKey key)).mem_iff.mp
    (heq ▸ (List.of_mem_zip hp).1))

theorem enc_char_value_mem (key : List ℕ) {ch d : Char}
    (h : jsObjGet (generateTable key).encryptTable ch = some d) : d ∈ chars := by
  rw [encryptTable_eq, jsObjGet] at h
  cases hf : (chars.zip (deterministicShuffle chars (hashKey key))).find?
      (fun p => p.1 == ch) with
  | none => rw [hf] at h; exact absurd h (by simp)
  | some p =>
    rw [hf] at h
    have hd : p.2 = d := by simpa using h
    have hmem := List.mem_of_find?_eq_some hf
    exact (deterministicShuffle_perm chars (hashKey key)).mem_iff.mp
      (hd ▸ (List.of_mem_zip hmem).2)

theorem decChar_encChar (key : List ℕ) (ch : Char) :
    (jsObjGet (generateTable key).decryptTable
        ((jsObjGet (generateTable key).encryptTable ch).getD ch)).getD
      ((jsObjGet (generateTable key).encryptTable ch).getD ch) = ch := by
  by_cases h : ch ∈ chars
  · obtain ⟨⟨i, hi⟩, hch⟩ := List.mem_iff_get.mp h
    have hi2 : i < (deterministicShuffle chars (hashKey key)).length := by
      rw [length_deterministicShuffle]
      exact hi
    rw [← hch, enc_char_mem key hi hi2, Option.getD_some,
      dec_char_mem key hi2 hi, Option.getD_some]
  · rw [enc_char_not_mem key h, Option.getD_none, dec_char_not_mem key h,
      Option.getD_none]

theorem encChar_decChar (key : List ℕ) (ch : Char) :
    (jsObjGet (generateTable key).encryptTable
        ((jsObjGet (generateTable key).decryptTable ch).getD ch)).getD
      ((jsObjGet (generateTable key).decryptTable ch).getD ch) = ch := by
  by_cases h : ch ∈ chars
  · have hsh : ch ∈ deterministicShuffle chars (hashKey key) :=
      (deterministicShuffle_perm chars (hashKey key)).mem_iff.mpr h
    obtain ⟨⟨i, hi2⟩, hch⟩ := List.mem_iff_get.mp hsh
    have hi : i < chars.length := by
      rw [← length_deterministicShuffle chars (hashKey key)]
      exact hi2
    rw [← hch, dec_char_mem key hi2 hi, Option.getD_some,
      enc_char_mem key hi hi2, Option.getD_some]
  · rw [dec_char_not_mem key h, Option.getD_none, enc_char_not_mem key h,
      Option.getD_none]

theorem decrypt_encrypt (key : List ℕ) (text : List Char) :
    decrypt (generateTable key) (encrypt (generateTable key) text) = text := by
  induction text with
  | nil => rfl
  | cons c rest ih =>
    rw [encrypt, decrypt] at ih ⊢
    rw [List.map_cons, List.map_cons, decChar_encChar key c, ih]

theorem encrypt_decrypt (key : List ℕ) (text : List Char) :
    encrypt (generateTable key) (decrypt (generateTable key) text) = text := by
  induction text with
  | nil => rfl
  | cons c rest ih =>
    rw [decrypt, encrypt] at ih ⊢
    rw [List.map_cons, List.map_cons, encChar_decChar key c, ih]

/-- C1: for every secret key and every string (modelled as an arbitrary list
of characters, in or out of the alphabet, including the empty list),
decrypting an encryption returns the original and encrypting a decryption
returns the original. -/
theorem claim1_round_trip (key : List ℕ) (text : List Char) :
    decrypt (generateTable key) (encrypt (generateTable key) text) = text ∧
      encrypt (generateTable key) (decrypt (generateTable key) text) = text :=
  ⟨decrypt_encrypt key text, encrypt_decrypt key text⟩

/-- C2: two cipher instances constructed from the same key string have
identical forward and inverse tables and encrypt every text identically —
in this embedding construction is the pure function `generateTable`, so the
mapping is a function of the key alone. -/
theorem claim2_determinism (key : List ℕ) (c1 c2 : Cipher)
    (h1 : c1 = generateTable key) (h2 : c2 = generateTable key) :
    c1.encryptTable = c2.encryptTable ∧ c1.decryptTable = c2.decryptTable ∧
      ∀ text : List Char, encrypt c1 text = encrypt c2 text := by
  subst h1
  subst h2
  exact ⟨rfl, rfl, fun _ => rfl⟩

theorem claim2_determinism_witness :
    (generateTable []).encryptTable = (generateTable []).encryptTable ∧
      (generateTable []).decryptTable = (generateTable []).decryptTable ∧
      ∀ text : List Char,
        encrypt (generateTable []) text = encrypt (generateTable []) text :=
  claim2_determinism [] (generateTable []) (generateTable []) rfl rfl

/-- C3: for every key, every alphabet character appears exactly once among
the keys and exactly once among the values of the forward table, and the
inverse table sends the forward image of every alphabet character back to
it. -/
theorem claim3_tables_form_permutation (key : List ℕ) (ch : Char)
    (h : ch ∈ chars) :
    ((generateTable key).encryptTable.map Prod.fst).count ch = 1 ∧
      ((generateTable key).encryptTable.map Prod.snd).count ch = 1 ∧
      ∃ d, jsObjGet (generateTable key).encryptTable ch = some d ∧
        jsObjGet (generateTable key).decryptTable d = some ch := by
  refine ⟨?_, ?_, ?_⟩
  · rw [encryptTable_eq,
      List.map_fst_zip _ _ (le_of_eq (length_deterministicShuffle _ _).symm)]
    exact List.count_eq_one_of_mem chars_nodup h
  · rw [encryptTable_eq,
      List.map_snd_zip _ _ (le_of_eq (length_deterministicShuffle _ _)),
      List.Perm.count_eq (deterministicShuffle_perm chars (hashKey key))]
    exact List.count_eq_one_of_mem chars_nodup h
  · obtain ⟨⟨i, hi⟩, hch⟩ := List.mem_iff_get.mp h
    have hi2 : i < (deterministicShuffle chars (hashKey key)).length := by
      rw [length_deterministicShuffle]
      exact hi
    refine ⟨(deterministicShuffle chars (hashKey key)).get ⟨i, hi2⟩, ?_, ?_⟩
    · rw [← hch]
      exact enc_char_mem key hi hi2
    · rw [dec_char_mem key hi2 hi, hch]

theorem claim3_tables_form_permutation_witness :
    ('a' ∈ chars) ∧
      (((generateTable []).encryptTable.map Prod.fst).count 'a' = 1 ∧
        ((generateTable []).encryptTable.map Prod.snd).count 'a' = 1 ∧
        ∃ d, jsObjGet (generateTable []).encryptTable 'a' = some d ∧
          jsObjGet (generateTable []).decryptTable d = some 'a') :=
  ⟨by decide, claim3_tables_form_permutation [] 'a' (by decide)⟩

/-- C7: encryption and decryption preserve the length of every input, and
both send the empty string to the empty string. -/
theorem claim7_length_preservation (key : List ℕ) (text : List Char) :
    (encrypt (generateTable key) text).length = text.length ∧
      (decrypt (generateTable key) text).length = text.length ∧
      encrypt (generateTable key) [] = [] ∧
      decrypt (generateTable key) [] = [] := by
  refine ⟨?_, ?_, rfl, rfl⟩
  · rw [encrypt, List.length_map]
  · rw [decrypt, List.length_map]

theorem at_sign_not_mem_chars : '@' ∉ chars := by decide

/-- C8: a character outside the 62-character set is left unchanged by both
operations at every position, and in particular the string `"!@#$%^&*()"`
encrypts and decrypts to itself, for every key. -/
theorem claim8_out_of_alphabet_identity (key : List ℕ) (text : List Char)
    (i : ℕ) (hi : i < text.length) (h : text.getD i ' ' ∉ chars) :
    (encrypt (generateTable key) text)[i]? = some (text.getD i ' ') ∧
      (decrypt (generateTable key) text)[i]? = some (text.getD i ' ') ∧
      encrypt (generateTable key) "!@#$%^&*()".toList = "!@#$%^&*()".toList ∧
      decrypt (generateTable key) "!@#$%^&*()".toList = "!@#$%^&*()".toList := by
  have hget : text.getD i ' ' = text.get ⟨i, hi⟩ := by
    rw [List.getD_eq_getElem text ' ' hi, List.get_eq_getElem]
  have hspec : ∀ ch ∈ "!@#$%^&*()".toList, ch ∉ chars := by decide
  refine ⟨?_, ?_, ?_, ?_⟩
  · rw [encrypt, List.getElem?_map, List.getElem?_eq_getElem hi]
    rw [hget] at h
    rw [show text[i] = text.get ⟨i, hi⟩ from (List.get_eq_getElem text ⟨i, hi⟩).symm,
      Option.map_some', enc_char_not_mem key h, Option.getD_none, hget]
  · rw [decrypt, List.getElem?_map, List.getElem?_eq_getElem hi]
    rw [hget] at h
    rw [show text[i] = text.get ⟨i, hi⟩ from (List.get_eq_getElem text ⟨i, hi⟩).symm,
      Option.map_some', dec_char_not_mem key h, Option.getD_none, hget]
  · rw [encrypt]
    exact (List.map_congr_left fun ch hch => by
      rw [enc_char_not_mem key (hspec ch hch), Option.getD_none]
      rfl).trans (List.map_id _)
  · rw [decrypt]
    exact (List.map_congr_left fun ch hch => by
      rw [dec_char_not_mem key (hspec ch hch), Option.getD_none]
      rfl).trans (List.map_id _)

theorem claim8_out_of_alphabet_identity_witness :
    (0 < (['!'] : List Char).length ∧ (['!'] : List Char).getD 0 ' ' ∉ chars) ∧
      ((encrypt (generateTable []) ['!'])[0]? = some ((['!'] : List Char).getD 0 ' ') ∧
        (decrypt (generateTable []) ['!'])[0]? = some ((['!'] : List Char).getD 0 ' ') ∧
        encrypt (generateTable []) "!@#$%^&*()".toList = "!@#$%^&*()".toList ∧
        decrypt (generateTable []) "!@#$%^&*()".toList = "!@#$%^&*()".toList) :=
  ⟨⟨by decide, by decide⟩,
    claim8_out_of_alphabet_identity [] ['!'] 0 (by decide) (by decide)⟩

/-- C9: for every key, `getTableInfo` reports both table sizes as 62 and
`isComplete = true`. -/
theorem claim9_table_info (key : List ℕ) :
    (getTableInfo (generateTable key)).encryptTableSize = 62 ∧
      (getTableInfo (generateTable key)).decryptTableSize = 62 ∧
      (getTableInfo (generateTable key)).isComplete = true := by
  have he : (generateTable key).encryptTable.length = 62 := by
    rw [encryptTable_eq, List.length_zip, length_deterministicShuffle,
      chars_length, Nat.min_self]
  have hd : (generateTable key).decryptTable.length = 62 := by
    rw [decryptTable_eq, List.length_zip, length_deterministicShuffle,
      chars_length, Nat.min_self]
  refine ⟨?_, ?_, ?_⟩
  · simp only [getTableInfo]
    exact he
  · simp only [getTableInfo]
    exact hd
  · simp only [getTableInfo]
    rw [he, hd]
    rfl

theorem enc_no_at (key : List ℕ) (productId : List Char)
    (h : '@' ∉ productId) :
    '@' ∉ encrypt (generateTable key) productId := by
  rw [encrypt]
  intro hmem
  obtain ⟨ch, hch, himg⟩ := List.mem_map.mp hmem
  cases hopt : jsObjGet (generateTable key).encryptTable ch with
  | none =>
    rw [hopt, Option.getD_none] at himg
    exact h (himg ▸ hch)
  | some d =>
    rw [hopt, Option.getD_some] at himg
    exact at_sign_not_mem_chars (himg ▸ enc_char_value_mem key hopt)

theorem jsSplit_no_sep (sep : Char) :
    ∀ l : List Char, sep ∉ l → jsSplit sep l = [l] := by
  intro l
  induction l with
  | nil => intro _; rfl
  | cons c rest ih =>
    intro h
    have hc : (c == sep) = false :=
      beq_eq_false_iff_ne.mpr fun heq => h (List.mem_cons.mpr (Or.inl heq.symm))
    rw [jsSplit, hc, ih fun hm => h (List.mem_cons_of_mem c hm)]
    rfl

theorem jsSplit_append (sep : Char) :
    ∀ (a b : List Char), sep ∉ a →
      jsSplit sep (a ++ sep :: b) = a :: jsSplit sep b := by
  intro a
  induction a with
  | nil =>
    intro b _
    rw [List.nil_append, jsSplit, beq_self_eq_true]
    rfl
  | cons c a ih =>
    intro b h
    have hc : (c == sep) = false :=
      beq_eq_false_iff_ne.mpr fun heq => h (List.mem_cons.mpr (Or.inl heq.symm))
    rw [List.cons_append, jsSplit, hc,
      ih b fun hm => h (List.mem_cons_of_mem c hm)]
    rfl

/-- C10: for every key, splitting prefix (here the `pfx` field of the source
object) and product id free of the separator '@', decoding a generated SKU
recovers the prefix and the original product id — the ciphertext never
contains '@', because the table maps alphabet characters into the alphabet
and passes all other characters through. -/
theorem claim10_sku_round_trip (key : List ℕ) (pre productId : List Char)
    (hp : '@' ∉ pre) (hq : '@' ∉ productId) :
    decodeSKU (generateSKU productId pre key) key =
      some ⟨pre, productId, "monoalphabetic"⟩ := by
  rw [generateSKU, decodeSKU,
    jsSplit_append '@' pre (encrypt (generateTable key) productId) hp,
    jsSplit_no_sep '@' _ (enc_no_at key productId hq)]
  show some (DecodedSKU.mk pre
      (decrypt (generateTable key) (encrypt (generateTable key) productId))
      "monoalphabetic") = _
  rw [decrypt_encrypt key productId]

theorem claim10_sku_round_trip_witness :
    ('@' ∉ ("si".toList : List Char) ∧ '@' ∉ ("B07XYZ123".toList : List Char)) ∧
      decodeSKU (generateSKU "B07XYZ123".toList "si".toList []) [] =
        some ⟨"si".toList, "B07XYZ123".toList, "monoalphabetic"⟩ :=
  ⟨⟨by decide, by decide⟩,
    claim10_sku_round_trip [] "si".toList "B07XYZ123".toList
      (by decide) (by decide)⟩

end SkuObfuscator
